import Mathlib

/-!
# Verification of `signvec` (sign-partitioned vector)

Shallow embedding of the `SignVec` data structure from `src/signvec.rs`:
an element sequence (`vals : List Int`, the reference `Signable` domain with
`sign(x) = if x >= 0 { Plus } else { Minus }`) together with two partition
index sets `pos` and `neg` (the external `fastset::Set` collaborator is
modelled as `Finset ℕ`).  Each mutation of the Rust source is translated
step for step; fallible entry points (the Rust panics) become `Option` /
`Except` results carrying the values the panic message reports.
-/

/-- The two-valued classification tag (`enum Sign { Plus, Minus }`). -/
inductive Sign where
  | Plus : Sign
  | Minus : Sign
deriving DecidableEq, Repr

/-- The classification function for the reference numeric domain
(`impl Signable for i64: if *self >= 0 { Plus } else { Minus }`). -/
def sgn (x : Int) : Sign :=
  if 0 ≤ x then Sign.Plus else Sign.Minus

/-- The `SignVec` record: the dense element sequence `vals` plus the two
partition index sets `pos` and `neg` (fields of `struct SignVec<T>`). -/
structure SignVec where
  vals : List Int
  pos : Finset ℕ
  neg : Finset ℕ
deriving DecidableEq

/-- `SignVec::new` / `Default::default`: empty sequence, both index sets
empty (the `Set::new(DEFAULT_SET_SIZE)` capacity argument has no logical
content). -/
def SignVec.empty : SignVec := ⟨[], ∅, ∅⟩

/-- The set-rebuilding pass of `SignVec::sync`: starting from cleared sets,
walk the sequence and insert each index into the set matching its sign
(`vals.iter().enumerate().for_each(...)`). -/
def syncFold (vals : List Int) : Finset ℕ × Finset ℕ :=
  (List.range vals.length).foldl
    (fun acc idx =>
      match sgn (vals.getD idx 0) with
      | Sign.Plus => (insert idx acc.1, acc.2)
      | Sign.Minus => (acc.1, insert idx acc.2))
    (∅, ∅)

/-- `SignVec::sync`: clear both sets, then recompute them from the current
element sequence. -/
def SignVec.sync (sv : SignVec) : SignVec :=
  { vals := sv.vals, pos := (syncFold sv.vals).1, neg := (syncFold sv.vals).2 }

/-- The global invariant INV1-INV3 in the spec's operational form: the two
partition sets hold exactly what a full `sync()` recomputation from the
current element sequence would produce. -/
def INV (sv : SignVec) : Prop :=
  sv.pos = (syncFold sv.vals).1 ∧ sv.neg = (syncFold sv.vals).2

instance (sv : SignVec) : Decidable (INV sv) :=
  inferInstanceAs (Decidable (_ = _ ∧ _ = _))

/-- Declarative companion of `syncFold`: the set of positions whose element
carries classification `s`. -/
def idxOf (s : Sign) (vals : List Int) : Finset ℕ :=
  (Finset.range vals.length).filter (fun i => sgn (vals.getD i 0) = s)

lemma mem_idxOf {s : Sign} {vals : List Int} {i : ℕ} :
    i ∈ idxOf s vals ↔ i < vals.length ∧ sgn (vals.getD i 0) = s := by
  simp [idxOf, Finset.mem_filter, Finset.mem_range]

/-- The `sync` loop computes exactly the positive / negative position sets. -/
lemma syncFold_eq (vals : List Int) :
    syncFold vals = (idxOf Sign.Plus vals, idxOf Sign.Minus vals) := by
  unfold syncFold
  suffices h : ∀ n, n ≤ vals.length →
      (List.range n).foldl
        (fun acc idx =>
          match sgn (vals.getD idx 0) with
          | Sign.Plus => (insert idx acc.1, acc.2)
          | Sign.Minus => (acc.1, insert idx acc.2))
        (∅, ∅) =
      ((Finset.range n).filter (fun i => sgn (vals.getD i 0) = Sign.Plus),
       (Finset.range n).filter (fun i => sgn (vals.getD i 0) = Sign.Minus)) by
    rw [h vals.length le_rfl]; rfl
  intro n hn
  induction n with
  | zero => simp
  | succ m ih =>
    rw [List.range_succ, List.foldl_append]
    rw [ih (Nat.le_of_succ_le hn)]
    simp only [List.foldl_cons, List.foldl_nil, Finset.range_succ,
      Finset.filter_insert]
    cases h : sgn (vals.getD m 0) <;> simp [h]

lemma INV_iff {sv : SignVec} :
    INV sv ↔ sv.pos = idxOf Sign.Plus sv.vals ∧ sv.neg = idxOf Sign.Minus sv.vals := by
  unfold INV
  rw [syncFold_eq]

/-- `SignVec::from` / `from_iter`: ingest a list, computing each element's
classification once and inserting its position into the matching set. -/
def SignVec.fromList (l : List Int) : SignVec :=
  { vals := l, pos := (syncFold l).1, neg := (syncFold l).2 }

lemma INV_fromList (l : List Int) : INV (SignVec.fromList l) := by
  constructor <;> rfl

/-- `SignVec::push`: append one element, inserting the new tail position
into the set matching its sign. -/
def SignVec.push (sv : SignVec) (element : Int) : SignVec :=
  let index := sv.vals.length
  match sgn element with
  | Sign.Plus => { vals := sv.vals ++ [element], pos := insert index sv.pos, neg := sv.neg }
  | Sign.Minus => { vals := sv.vals ++ [element], pos := sv.pos, neg := insert index sv.neg }

/-- `SignVec::remove`: first every tracked position `> index` in both sets
is decremented (by rebuilding each set through `iter().map(...).collect()`),
then the element is removed from the sequence and `index` is deleted from
the set matching the removed element's sign.  Out-of-bounds `index`
(`Vec::remove` panic) is `none`. -/
def SignVec.remove (sv : SignVec) (index : ℕ) : Option (Int × SignVec) :=
  if index < sv.vals.length then
    let pos1 := sv.pos.image (fun idx => if idx > index then idx - 1 else idx)
    let neg1 := sv.neg.image (fun idx => if idx > index then idx - 1 else idx)
    let removed := sv.vals.getD index 0
    let vals1 := sv.vals.eraseIdx index
    match sgn removed with
    | Sign.Plus => some (removed, { vals := vals1, pos := pos1.erase index, neg := neg1 })
    | Sign.Minus => some (removed, { vals := vals1, pos := pos1, neg := neg1.erase index })
  else none

/-- One advance of the draining view (`SignVecDrain::next` body, after the
exhaustion test): remove the element at the cursor from the sequence,
delete the cursor position from both sets, then decrement every tracked
position greater than the cursor in both sets. -/
def drainStep (cursor : ℕ) (sv : SignVec) : SignVec :=
  { vals := sv.vals.eraseIdx cursor,
    pos := (sv.pos.erase cursor).image (fun i => if i > cursor then i - 1 else i),
    neg := (sv.neg.erase cursor).image (fun i => if i > cursor then i - 1 else i) }

/-- `SignVecDrain::next`: exhausted (`current_index >= drain_end`) yields
`none`; otherwise it yields the element at the cursor, the repaired parent,
and the decremented end bound (the cursor itself never moves). -/
def drainNext (cursor dend : ℕ) (sv : SignVec) : Option (Int × SignVec × ℕ) :=
  if cursor ≥ dend then none
  else some (sv.vals.getD cursor 0, drainStep cursor sv, dend - 1)

/-- Iterate `SignVecDrain::next` `k` times from a fixed cursor, collecting
the yielded elements and returning the final parent state and end bound. -/
def drainN : ℕ → ℕ → ℕ → SignVec → List Int × SignVec × ℕ
  | 0, _, dend, sv => ([], sv, dend)
  | k + 1, cursor, dend, sv =>
    match drainNext cursor dend sv with
    | none => ([], sv, dend)
    | some (x, sv1, dend1) =>
      let r := drainN k cursor dend1 sv1
      (x :: r.1, r.2.1, r.2.2)

/-- `SignVec::drain` after range resolution: validate
`start > end || end > len` (panic -> `none`), otherwise hand out the view
state `(parent, current_index = start, drain_end = end)`. -/
def SignVec.drain (sv : SignVec) (start stop : ℕ) : Option (SignVec × ℕ × ℕ) :=
  if start > stop ∨ stop > sv.vals.length then none
  else some (sv, start, stop)

/-- `SignVec::swap_remove`: move the last element into slot `index`, shrink
by one, delete `index` from the removed element's sign set, and when the
slot was not the last, re-home the moved element's tracked position from
the old tail position (`vals.len()` after the removal) to `index`.
Out-of-bounds `index` (`Vec::swap_remove` panic) is `none`. -/
def SignVec.swapRemove (sv : SignVec) (index : ℕ) : Option (Int × SignVec) :=
  if index < sv.vals.length then
    let removed := sv.vals.getD index 0
    let lastElem := sv.vals.getLast?.getD 0
    let vals1 := (sv.vals.set index lastElem).dropLast
    let st1 : Finset ℕ × Finset ℕ :=
      match sgn removed with
      | Sign.Plus => (sv.pos.erase index, sv.neg)
      | Sign.Minus => (sv.pos, sv.neg.erase index)
    if index < vals1.length then
      match sgn (vals1.getD index 0) with
      | Sign.Plus =>
        some (removed, { vals := vals1, pos := insert index (st1.1.erase vals1.length), neg := st1.2 })
      | Sign.Minus =>
        some (removed, { vals := vals1, pos := st1.1, neg := insert index (st1.2.erase vals1.length) })
    else
      some (removed, { vals := vals1, pos := st1.1, neg := st1.2 })
  else none

/-- `SignVec::set_unchecked`: overwrite slot `idx`, and only when the new
value's sign differs from the old one's, move `idx` from the old sign's
set to the new sign's set. -/
def SignVec.setUnchecked (sv : SignVec) (idx : ℕ) (val : Int) : SignVec :=
  let oldSign := sgn (sv.vals.getD idx 0)
  let newSign := sgn val
  let vals1 := sv.vals.set idx val
  if oldSign ≠ newSign then
    match newSign with
    | Sign.Plus => { vals := vals1, pos := insert idx sv.pos, neg := sv.neg.erase idx }
    | Sign.Minus => { vals := vals1, pos := sv.pos.erase idx, neg := insert idx sv.neg }
  else { vals := vals1, pos := sv.pos, neg := sv.neg }

/-- `SignVec::set`: bounds check `idx >= len` (panicking with the offending
index and the current length, modelled as the error payload), then defer
to `set_unchecked`. -/
def SignVec.set (sv : SignVec) (idx : ℕ) (val : Int) : Except (ℕ × ℕ) SignVec :=
  if idx ≥ sv.vals.length then Except.error (idx, sv.vals.length)
  else Except.ok (sv.setUnchecked idx val)

/-- `SignVec::split_off`: bounds check `at > len` (panicking with the
length and the split index, modelled as the error payload); otherwise move
the tail into a fresh instance, walking each tail offset `i`, removing
`at + i` from whichever original set held it and inserting `i` into the
corresponding fresh set. -/
def SignVec.splitOff (sv : SignVec) (at_ : ℕ) : Except (ℕ × ℕ) (SignVec × SignVec) :=
  if at_ > sv.vals.length then Except.error (sv.vals.length, at_)
  else
    let newVals := sv.vals.drop at_
    let st :=
      (List.range newVals.length).foldl
        (fun st i =>
          if at_ + i ∈ st.1 then
            (st.1.erase (at_ + i), st.2.1, insert i st.2.2.1, st.2.2.2)
          else if at_ + i ∈ st.2.1 then
            (st.1, (st.2.1 : Finset ℕ).erase (at_ + i), st.2.2.1, insert i st.2.2.2)
          else st)
        (sv.pos, sv.neg, (∅ : Finset ℕ), (∅ : Finset ℕ))
    Except.ok
      ({ vals := sv.vals.take at_, pos := st.1, neg := st.2.1 },
       { vals := newVals, pos := st.2.2.1, neg := st.2.2.2 })

/-- `SignVec::pop`: on an empty sequence return `None` leaving everything
untouched; otherwise remove the last element and delete its position (the
new length) from the set matching its sign. -/
def SignVec.pop (sv : SignVec) : Option Int × SignVec :=
  match sv.vals.getLast? with
  | none => (none, sv)
  | some topop =>
    let vals1 := sv.vals.dropLast
    let idx := vals1.length
    match sgn topop with
    | Sign.Plus => (some topop, { vals := vals1, pos := sv.pos.erase idx, neg := sv.neg })
    | Sign.Minus => (some topop, { vals := vals1, pos := sv.pos, neg := sv.neg.erase idx })

/-- The body of the `extend_from_within` registration loop: for source
position `i`, insert the appended copy's position `offset + i - start`
into the set matching the sign read from the extended sequence. -/
def efwBody (vals1 : List Int) (offset start : ℕ)
    (st : Finset ℕ × Finset ℕ) (i : ℕ) : Finset ℕ × Finset ℕ :=
  match sgn (vals1.getD i 0) with
  | Sign.Plus => (insert (offset + i - start) st.1, st.2)
  | Sign.Minus => (st.1, insert (offset + i - start) st.2)

/-- `SignVec::extend_from_within` after range resolution: validate
`start > end || end > len` (panic -> `none`), append the sub-range to the
tail, then for each source position `i` in `start..end` insert position
`offset + i - start` (with `offset` the pre-extension length) into the set
matching the sign read back from the extended sequence. -/
def SignVec.extendFromWithin (sv : SignVec) (start stop : ℕ) : Option SignVec :=
  if start > stop ∨ stop > sv.vals.length then none
  else
    let offset := sv.vals.length
    let vals1 := sv.vals ++ ((sv.vals.drop start).take (stop - start))
    let st :=
      (List.range' start (stop - start)).foldl (efwBody vals1 offset start)
        (sv.pos, sv.neg)
    some { vals := vals1, pos := st.1, neg := st.2 }

/-- Modelled from the spec: the external partition-index primitive
(`fastset::Set`, not part of this repository's sources) provides
`drawRandom(rng) -> Option<position>` returning none iff the set is empty
and otherwise a member of the set.  The draw is modelled as indexing the
sorted member list by the rng value modulo the member count. -/
def setRandom (s : Finset ℕ) (rng : ℕ) : Option ℕ :=
  if s.card = 0 then none
  else some ((s.sort (· ≤ ·)).getD (rng % s.card) 0)

/-- `SignVec::random`: draw from the set selected by `sign`. -/
def SignVec.random (sv : SignVec) (sign : Sign) (rng : ℕ) : Option ℕ :=
  match sign with
  | Sign.Plus => setRandom sv.pos rng
  | Sign.Minus => setRandom sv.neg rng

/-- `SignVec::random_pos`: the fixed-classification shortcut drawing from
`pos` directly. -/
def SignVec.randomPos (sv : SignVec) (rng : ℕ) : Option ℕ :=
  setRandom sv.pos rng

/-- `SignVec::random_neg`: the fixed-classification shortcut drawing from
`neg` directly. -/
def SignVec.randomNeg (sv : SignVec) (rng : ℕ) : Option ℕ :=
  setRandom sv.neg rng

/-- `SignVec::count`: the size of the set selected by `sign`. -/
def SignVec.count (sv : SignVec) (sign : Sign) : ℕ :=
  match sign with
  | Sign.Plus => sv.pos.card
  | Sign.Minus => sv.neg.card

/-- Rust `Ord` on the element domain (`i64::cmp`). -/
def intCmp (x y : Int) : Ordering :=
  if x < y then Ordering.lt else if x = y then Ordering.eq else Ordering.gt

/-- `Vec::cmp` semantics: lexicographic comparison of two sequences. -/
def listCmp : List Int → List Int → Ordering
  | [], [] => Ordering.eq
  | [], _ :: _ => Ordering.lt
  | _ :: _, [] => Ordering.gt
  | a :: as, b :: bs =>
    match intCmp a b with
    | Ordering.eq => listCmp as bs
    | o => o

/-- `PartialEq for SignVec`: `self.vals.eq(&other.vals)` - the partition
sets are not consulted. -/
def SignVec.beq (a b : SignVec) : Bool :=
  a.vals == b.vals

/-- `Ord for SignVec`: `self.vals.cmp(&other.vals)` - the partition sets
are not consulted. -/
def SignVec.cmp (a b : SignVec) : Ordering :=
  listCmp a.vals b.vals

/-! ## Positional facts about the list primitives -/

lemma getD_eraseIdx (vals : List Int) (k j : ℕ) :
    (vals.eraseIdx k).getD j 0 = if j < k then vals.getD j 0 else vals.getD (j + 1) 0 := by
  rw [List.getD_eq_getElem?_getD, List.getElem?_eraseIdx]
  split <;> rw [List.getD_eq_getElem?_getD]

lemma getD_set (vals : List Int) (k j : ℕ) (v : Int) :
    (vals.set k v).getD j 0 = if k = j ∧ k < vals.length then v else vals.getD j 0 := by
  rw [List.getD_eq_getElem?_getD, List.getElem?_set]
  by_cases hkj : k = j
  · subst hkj
    by_cases hk : k < vals.length
    · simp [hk]
    · simp only [hk, and_false, if_false, if_true, if_neg hk]
      rw [List.getD_eq_getElem?_getD, List.getElem?_eq_none (by omega)]
  · simp only [hkj, false_and, if_false, if_neg hkj]
    rw [List.getD_eq_getElem?_getD]

lemma getD_dropLast (vals : List Int) (j : ℕ) :
    vals.dropLast.getD j 0 = if j < vals.length - 1 then vals.getD j 0 else 0 := by
  rw [List.getD_eq_getElem?_getD, List.getElem?_dropLast]
  split
  · rw [List.getD_eq_getElem?_getD]
  · rfl

lemma getD_append (l1 l2 : List Int) (j : ℕ) :
    (l1 ++ l2).getD j 0 = if j < l1.length then l1.getD j 0 else l2.getD (j - l1.length) 0 := by
  rw [List.getD_eq_getElem?_getD, List.getElem?_append]
  split <;> rw [List.getD_eq_getElem?_getD]

lemma getD_zero_of_le {vals : List Int} {j : ℕ} (h : vals.length ≤ j) :
    vals.getD j 0 = 0 := by
  rw [List.getD_eq_getElem?_getD, List.getElem?_eq_none h]
  rfl

lemma getLast_getD (vals : List Int) :
    vals.getLast?.getD 0 = vals.getD (vals.length - 1) 0 := by
  rw [List.getLast?_eq_getElem?, List.getD_eq_getElem?_getD]

/-! ## The three index-repair identities shared by the mutations -/

/-- Deleting position `k` and shifting every tracked position `> k` down by
one is exactly the partition set of the sequence with slot `k` removed. -/
lemma idxOf_eraseIdx (s : Sign) (vals : List Int) (k : ℕ) (hk : k < vals.length) :
    idxOf s (vals.eraseIdx k) =
      ((idxOf s vals).erase k).image (fun i => if i > k then i - 1 else i) := by
  ext j
  simp only [mem_idxOf, Finset.mem_image, Finset.mem_erase, List.length_eraseIdx,
    if_pos hk, getD_eraseIdx]
  constructor
  · rintro ⟨hj, hs⟩
    by_cases hjk : j < k
    · rw [if_pos hjk] at hs
      exact ⟨j, ⟨by omega, by omega, hs⟩, by simp [if_neg (by omega : ¬ j > k)]⟩
    · rw [if_neg hjk] at hs
      exact ⟨j + 1, ⟨by omega, by omega, hs⟩, by simp [if_pos (by omega : j + 1 > k)]⟩
  · rintro ⟨i, ⟨hik, hi, hs⟩, hfi⟩
    by_cases hik' : i > k
    · rw [if_pos hik'] at hfi
      subst hfi
      refine ⟨by omega, ?_⟩
      rw [if_neg (by omega : ¬ i - 1 < k)]
      have : i - 1 + 1 = i := by omega
      rw [this]; exact hs
    · rw [if_neg hik'] at hfi
      subst hfi
      exact ⟨by omega, by rw [if_pos (by omega : i < k)]; exact hs⟩

/-- Overwriting slot `k` only moves position `k` between the two partition
sets, according to the new value's sign. -/
lemma idxOf_set (s : Sign) (vals : List Int) (k : ℕ) (v : Int) (hk : k < vals.length) :
    idxOf s (vals.set k v) =
      if sgn v = s then insert k (idxOf s vals) else (idxOf s vals).erase k := by
  ext j
  rcases eq_or_ne k j with rfl | hne
  · simp only [mem_idxOf, List.length_set, getD_set, hk, and_self, if_pos, true_and]
    split
    · simp_all [Finset.mem_insert]
    · simp_all [Finset.mem_erase]
  · simp only [mem_idxOf, List.length_set, getD_set, hne, false_and, if_false]
    split
    · simp [Finset.mem_insert, Ne.symm hne, mem_idxOf]
    · simp [Finset.mem_erase, Ne.symm hne, mem_idxOf]

/-- Dropping the last element only deletes the last position from the
partition sets. -/
lemma idxOf_dropLast (s : Sign) (vals : List Int) :
    idxOf s vals.dropLast = (idxOf s vals).erase (vals.length - 1) := by
  ext j
  simp only [mem_idxOf, List.length_dropLast, getD_dropLast, Finset.mem_erase]
  constructor
  · rintro ⟨hj, hs⟩
    rw [if_pos hj] at hs
    exact ⟨by omega, by omega, hs⟩
  · rintro ⟨hne, hj, hs⟩
    have hj' : j < vals.length - 1 := by omega
    exact ⟨hj', by rw [if_pos hj']; exact hs⟩

/-! ## Claim theorems -/

/-- C10: `pop` on an empty instance returns `None` and leaves the element
sequence and both partition sets completely unchanged; on a non-empty
instance of length `n` it returns the element at position `n-1`, shortens
the sequence to `n-1`, and removes index `n-1` from the partition set
matching the returned element's sign (the other set untouched), so
INV1-INV3 hold on return. -/
theorem pop_correct (sv : SignVec) (h : INV sv) :
    (sv.vals = [] → sv.pop = (none, sv)) ∧
    (sv.vals ≠ [] →
      sv.pop.1 = some (sv.vals.getD (sv.vals.length - 1) 0) ∧
      sv.pop.2.vals = sv.vals.dropLast ∧
      (sgn (sv.vals.getD (sv.vals.length - 1) 0) = Sign.Plus →
        sv.pop.2.pos = sv.pos.erase (sv.vals.length - 1) ∧ sv.pop.2.neg = sv.neg) ∧
      (sgn (sv.vals.getD (sv.vals.length - 1) 0) = Sign.Minus →
        sv.pop.2.neg = sv.neg.erase (sv.vals.length - 1) ∧ sv.pop.2.pos = sv.pos)) ∧
    INV sv.pop.2 := by
  rcases h' : sv.vals.getLast? with _ | x
  · have hnil : sv.vals = [] := List.getLast?_eq_none_iff.mp h'
    have hpop : sv.pop = (none, sv) := by
      unfold SignVec.pop
      rw [h']
    refine ⟨fun _ => hpop, fun hne => absurd hnil hne, ?_⟩
    rw [hpop]
    exact h
  · have hne : sv.vals ≠ [] := by
      intro hnil
      rw [hnil] at h'
      simp at h'
    have hx : x = sv.vals.getD (sv.vals.length - 1) 0 := by
      rw [List.getD_eq_getElem?_getD, ← List.getLast?_eq_getElem?, h']
      rfl
    have hP := INV_iff.mp h
    have hlen : 0 < sv.vals.length := List.length_pos.mpr hne
    rcases hs : sgn x with _ | _
    · have hpop : sv.pop = (some x,
          { vals := sv.vals.dropLast,
            pos := sv.pos.erase sv.vals.dropLast.length, neg := sv.neg }) := by
        simp only [SignVec.pop, h', hs]
      have hnotneg : sv.vals.length - 1 ∉ sv.neg := by
        rw [hP.2, mem_idxOf]
        rw [← hx]
        simp [hs]
      refine ⟨fun hnil => absurd hnil hne, fun _ => ⟨?_, ?_, ?_, ?_⟩, ?_⟩
      · rw [hpop, hx]
      · rw [hpop]
      · intro _
        rw [hpop]
        exact ⟨by rw [List.length_dropLast], rfl⟩
      · intro hmin
        rw [← hx, hs] at hmin
        cases hmin
      · rw [hpop, INV_iff]
        constructor
        · show sv.pos.erase sv.vals.dropLast.length = idxOf Sign.Plus sv.vals.dropLast
          rw [List.length_dropLast, idxOf_dropLast, hP.1]
        · show sv.neg = idxOf Sign.Minus sv.vals.dropLast
          rw [idxOf_dropLast, ← hP.2, Finset.erase_eq_of_not_mem hnotneg]
    · have hpop : sv.pop = (some x,
          { vals := sv.vals.dropLast,
            pos := sv.pos, neg := sv.neg.erase sv.vals.dropLast.length }) := by
        simp only [SignVec.pop, h', hs]
      have hnotpos : sv.vals.length - 1 ∉ sv.pos := by
        rw [hP.1, mem_idxOf]
        rw [← hx]
        simp [hs]
      refine ⟨fun hnil => absurd hnil hne, fun _ => ⟨?_, ?_, ?_, ?_⟩, ?_⟩
      · rw [hpop, hx]
      · rw [hpop]
      · intro hplus
        rw [← hx, hs] at hplus
        cases hplus
      · intro _
        rw [hpop]
        exact ⟨by rw [List.length_dropLast], rfl⟩
      · rw [hpop, INV_iff]
        constructor
        · show sv.pos = idxOf Sign.Plus sv.vals.dropLast
          rw [idxOf_dropLast, ← hP.1, Finset.erase_eq_of_not_mem hnotpos]
        · show sv.neg.erase sv.vals.dropLast.length = idxOf Sign.Minus sv.vals.dropLast
          rw [List.length_dropLast, idxOf_dropLast, hP.2]

/-- C10 witness: `pop` on `[5, -10]` returns `-10`, shrinks the sequence to
`[5]`, and erases index `1` from the negative set. -/
theorem pop_correct_witness :
    SignVec.fromList ([5, -10] : List Int) ≠ SignVec.empty ∧
    (SignVec.fromList [5, -10]).pop =
      (some (-10), { vals := [5], pos := {0}, neg := (∅ : Finset ℕ) }) := by
  have h := pop_correct (SignVec.fromList [5, -10]) (INV_fromList _)
  have h2 := h.2.1 (by decide)
  constructor
  · decide
  · have h1 := h2.1
    have hv := h2.2.1
    have hp := (h2.2.2.2 (by decide))
    have : (SignVec.fromList [5, -10]).pop =
        ((SignVec.fromList [5, -10]).pop.1, (SignVec.fromList [5, -10]).pop.2) := rfl
    rw [this, h1]
    have hstruct : (SignVec.fromList [5, -10]).pop.2 =
        { vals := (SignVec.fromList [5, -10]).pop.2.vals,
          pos := (SignVec.fromList [5, -10]).pop.2.pos,
          neg := (SignVec.fromList [5, -10]).pop.2.neg } := rfl
    rw [hstruct, hv, hp.1, hp.2]
    decide

/-- C5: for an in-bounds index, checked `set` defers to `set_unchecked`;
the mutation overwrites only position `idx`, performs no partition-set
edit when the new value's sign equals the old one's, and otherwise moves
`idx` from the old sign's set to the new sign's set, so INV1-INV3 hold on
return and every other position is untouched. -/
theorem set_correct (sv : SignVec) (idx : ℕ) (v : Int) (h : INV sv)
    (hidx : idx < sv.vals.length) :
    sv.set idx v = Except.ok (sv.setUnchecked idx v) ∧
    (sv.setUnchecked idx v).vals = sv.vals.set idx v ∧
    (∀ j, j ≠ idx → (sv.setUnchecked idx v).vals.getD j 0 = sv.vals.getD j 0) ∧
    (sgn v = sgn (sv.vals.getD idx 0) →
      (sv.setUnchecked idx v).pos = sv.pos ∧ (sv.setUnchecked idx v).neg = sv.neg) ∧
    INV (sv.setUnchecked idx v) := by
  have hP := INV_iff.mp h
  have hvals : (sv.setUnchecked idx v).vals = sv.vals.set idx v := by
    simp only [SignVec.setUnchecked]
    split
    · split <;> rfl
    · rfl
  refine ⟨by simp [SignVec.set, Nat.not_le.mpr hidx], hvals, ?_, ?_, ?_⟩
  · intro j hj
    rw [hvals, getD_set]
    simp [Ne.symm hj]
  · intro hsame
    simp only [SignVec.setUnchecked]
    rw [if_neg (fun hcon => hcon hsame.symm)]
    exact ⟨rfl, rfl⟩
  · rw [INV_iff, hvals]
    by_cases hsame : sgn (sv.vals.getD idx 0) = sgn v
    · simp only [SignVec.setUnchecked]
      rw [if_neg (fun hcon => hcon hsame)]
      constructor
      · show sv.pos = idxOf Sign.Plus (sv.vals.set idx v)
        rw [idxOf_set _ _ _ _ hidx, hP.1]
        rcases hv : sgn v with _ | _
        · rw [if_pos rfl, Finset.insert_eq_self.mpr]
          rw [mem_idxOf]
          exact ⟨hidx, by rw [hsame, hv]⟩
        · rw [if_neg (by simp)]
          rw [Finset.erase_eq_of_not_mem]
          rw [mem_idxOf, hsame, hv]
          simp
      · show sv.neg = idxOf Sign.Minus (sv.vals.set idx v)
        rw [idxOf_set _ _ _ _ hidx, hP.2]
        rcases hv : sgn v with _ | _
        · rw [if_neg (by simp)]
          rw [Finset.erase_eq_of_not_mem]
          rw [mem_idxOf, hsame, hv]
          simp
        · rw [if_pos rfl, Finset.insert_eq_self.mpr]
          rw [mem_idxOf]
          exact ⟨hidx, by rw [hsame, hv]⟩
    · simp only [SignVec.setUnchecked]
      rw [if_pos hsame]
      rcases hv : sgn v with _ | _
      · constructor
        · show insert idx sv.pos = idxOf Sign.Plus (sv.vals.set idx v)
          rw [idxOf_set _ _ _ _ hidx, if_pos hv, hP.1]
        · show sv.neg.erase idx = idxOf Sign.Minus (sv.vals.set idx v)
          rw [idxOf_set _ _ _ _ hidx, if_neg (by rw [hv]; simp), hP.2]
      · constructor
        · show sv.pos.erase idx = idxOf Sign.Plus (sv.vals.set idx v)
          rw [idxOf_set _ _ _ _ hidx, if_neg (by rw [hv]; simp), hP.1]
        · show insert idx sv.neg = idxOf Sign.Minus (sv.vals.set idx v)
          rw [idxOf_set _ _ _ _ hidx, if_pos hv, hP.2]

/-- C5 witness: replacing position 1 with 5 on `[1, -2, 3, -4]` gives
`[1, 5, 3, -4]` with three tracked positives and one tracked negative. -/
theorem set_correct_witness :
    (SignVec.fromList [1, -2, 3, -4]).set 1 5 =
      Except.ok ((SignVec.fromList [1, -2, 3, -4]).setUnchecked 1 5) ∧
    ((SignVec.fromList [1, -2, 3, -4]).setUnchecked 1 5).vals = [1, 5, 3, -4] ∧
    ((SignVec.fromList [1, -2, 3, -4]).setUnchecked 1 5).pos = {0, 1, 2} ∧
    ((SignVec.fromList [1, -2, 3, -4]).setUnchecked 1 5).neg = {3} ∧
    ((SignVec.fromList [1, -2, 3, -4]).setUnchecked 1 5).count Sign.Plus = 3 ∧
    ((SignVec.fromList [1, -2, 3, -4]).setUnchecked 1 5).count Sign.Minus = 1 := by
  have h := set_correct (SignVec.fromList [1, -2, 3, -4]) 1 5 (INV_fromList _) (by decide)
  exact ⟨h.1, by decide, by decide, by decide, by decide, by decide⟩

/-- C4: for an in-bounds index `k`, `swap_remove` returns the element at
position `k`, moves the last element into slot `k`, shrinks the length by
one, and after its two set repairs (delete `k` from the removed sign's
set; when `k` was not last, re-home the moved element's position) both
partition sets are exactly the sync recomputation of the new sequence, so
INV1-INV3 hold on return. -/
theorem swapRemove_correct (sv : SignVec) (k : ℕ) (h : INV sv)
    (hk : k < sv.vals.length) :
    sv.swapRemove k = some (sv.vals.getD k 0,
      { vals := (sv.vals.set k (sv.vals.getLast?.getD 0)).dropLast,
        pos := idxOf Sign.Plus ((sv.vals.set k (sv.vals.getLast?.getD 0)).dropLast),
        neg := idxOf Sign.Minus ((sv.vals.set k (sv.vals.getLast?.getD 0)).dropLast) }) ∧
    ((sv.vals.set k (sv.vals.getLast?.getD 0)).dropLast).length = sv.vals.length - 1 ∧
    INV { vals := (sv.vals.set k (sv.vals.getLast?.getD 0)).dropLast,
          pos := idxOf Sign.Plus ((sv.vals.set k (sv.vals.getLast?.getD 0)).dropLast),
          neg := idxOf Sign.Minus ((sv.vals.set k (sv.vals.getLast?.getD 0)).dropLast) } := by
  have hP := INV_iff.mp h
  set last := sv.vals.getLast?.getD 0 with hlast
  set vals1 := (sv.vals.set k last).dropLast with hvals1
  have hlen1 : vals1.length = sv.vals.length - 1 := by
    rw [hvals1, List.length_dropLast, List.length_set]
  have hlastval : last = sv.vals.getD (sv.vals.length - 1) 0 := getLast_getD sv.vals
  have hsetlen : (sv.vals.set k last).length = sv.vals.length := List.length_set _ _ _
  have hidx1 : ∀ s, idxOf s vals1 =
      (if sgn last = s then insert k (idxOf s sv.vals)
       else (idxOf s sv.vals).erase k).erase (sv.vals.length - 1) := by
    intro s
    rw [hvals1, idxOf_dropLast, hsetlen, idxOf_set _ _ _ _ hk]
  have hkPiff : k ∈ idxOf Sign.Plus sv.vals ↔ sgn (sv.vals.getD k 0) = Sign.Plus := by
    rw [mem_idxOf]
    exact ⟨fun hc => hc.2, fun hc => ⟨hk, hc⟩⟩
  have hkNiff : k ∈ idxOf Sign.Minus sv.vals ↔ sgn (sv.vals.getD k 0) = Sign.Minus := by
    rw [mem_idxOf]
    exact ⟨fun hc => hc.2, fun hc => ⟨hk, hc⟩⟩
  have hLP : sgn last = Sign.Plus → sv.vals.length - 1 ∉ idxOf Sign.Minus sv.vals := by
    intro hl
    rw [mem_idxOf, ← hlastval, hl]
    simp
  have hLN : sgn last = Sign.Minus → sv.vals.length - 1 ∉ idxOf Sign.Plus sv.vals := by
    intro hl
    rw [mem_idxOf, ← hlastval, hl]
    simp
  refine ⟨?_, hlen1, by rw [INV_iff]; exact ⟨rfl, rfl⟩⟩
  simp only [SignVec.swapRemove]
  rw [if_pos hk, ← hlast, ← hvals1]
  by_cases hkl : k < vals1.length
  · -- the removed slot was not the last: the last element moves into slot k
    have hkk : k < sv.vals.length - 1 := by omega
    have hmoved : vals1.getD k 0 = last := by
      rw [hvals1, getD_dropLast, List.length_set, if_pos hkk, getD_set,
        if_pos ⟨rfl, hk⟩]
    have hne_klast : k ≠ sv.vals.length - 1 := by omega
    rw [if_pos hkl]
    rcases hr : sgn (sv.vals.getD k 0) with _ | _ <;>
      rcases hl : sgn (vals1.getD k 0) with _ | _ <;>
        simp only [hr, hl, Option.some.injEq, Prod.mk.injEq, SignVec.mk.injEq,
          true_and] <;>
          rw [hmoved] at hl
    · -- removed Plus, moved Plus
      have hkP : k ∈ (idxOf Sign.Plus sv.vals).erase (sv.vals.length - 1) :=
        Finset.mem_erase.mpr ⟨hne_klast, hkPiff.mpr hr⟩
      refine ⟨?_, ?_⟩
      · rw [hlen1, hidx1 Sign.Plus, if_pos hl, hP.1, Finset.erase_right_comm,
          Finset.insert_erase hkP, Finset.erase_insert_of_ne hne_klast,
          Finset.insert_eq_self.mpr hkP]
      · rw [hidx1 Sign.Minus, if_neg (by rw [hl]; exact fun hc => Sign.noConfusion hc),
          hP.2, Finset.erase_eq_of_not_mem (fun hc => hLP hl (Finset.mem_erase.mp hc).2),
          Finset.erase_eq_of_not_mem (by rw [hkNiff, hr]; exact fun hc => Sign.noConfusion hc)]
    · -- removed Plus, moved Minus
      refine ⟨?_, ?_⟩
      · rw [hidx1 Sign.Plus, if_neg (by rw [hl]; exact fun hc => Sign.noConfusion hc),
          hP.1, Finset.erase_eq_of_not_mem
            (fun hc => hLN hl (Finset.mem_erase.mp hc).2)]
      · rw [hlen1, hidx1 Sign.Minus, if_pos hl, hP.2,
          Finset.erase_insert_of_ne hne_klast]
    · -- removed Minus, moved Plus
      refine ⟨?_, ?_⟩
      · rw [hlen1, hidx1 Sign.Plus, if_pos hl, hP.1,
          Finset.erase_insert_of_ne hne_klast]
      · rw [hidx1 Sign.Minus, if_neg (by rw [hl]; exact fun hc => Sign.noConfusion hc),
          hP.2, Finset.erase_eq_of_not_mem
            (fun hc => hLP hl (Finset.mem_erase.mp hc).2)]
    · -- removed Minus, moved Minus
      have hkN : k ∈ (idxOf Sign.Minus sv.vals).erase (sv.vals.length - 1) :=
        Finset.mem_erase.mpr ⟨hne_klast, hkNiff.mpr hr⟩
      refine ⟨?_, ?_⟩
      · rw [hidx1 Sign.Plus, if_neg (by rw [hl]; exact fun hc => Sign.noConfusion hc),
          hP.1, Finset.erase_eq_of_not_mem (fun hc => hLN hl (Finset.mem_erase.mp hc).2),
          Finset.erase_eq_of_not_mem (by rw [hkPiff, hr]; exact fun hc => Sign.noConfusion hc)]
      · rw [hlen1, hidx1 Sign.Minus, if_pos hl, hP.2, Finset.erase_right_comm,
          Finset.insert_erase hkN, Finset.erase_insert_of_ne hne_klast,
          Finset.insert_eq_self.mpr hkN]
  · -- the removed slot was the last one: no element moves
    have keq : k = sv.vals.length - 1 := by omega
    have hlastk : last = sv.vals.getD k 0 := by rw [hlastval, ← keq]
    rw [if_neg hkl]
    rcases hr : sgn (sv.vals.getD k 0) with _ | _ <;>
      simp only [hr, Option.some.injEq, Prod.mk.injEq, SignVec.mk.injEq, true_and]
    · -- removed (= last) Plus
      refine ⟨?_, ?_⟩
      · rw [hidx1 Sign.Plus, if_pos (by rw [hlastk, hr]), hP.1, ← keq,
          Finset.erase_insert_eq_erase]
      · rw [hidx1 Sign.Minus, if_neg (by rw [hlastk, hr]; exact fun hc => Sign.noConfusion hc),
          hP.2, ← keq, Finset.erase_eq_of_not_mem
            (fun hc => (hkNiff.mp (Finset.mem_erase.mp hc).2) |> fun hc2 => Sign.noConfusion (hr ▸ hc2)),
          Finset.erase_eq_of_not_mem
            (by rw [hkNiff, hr]; exact fun hc => Sign.noConfusion hc)]
    · -- removed (= last) Minus
      refine ⟨?_, ?_⟩
      · rw [hidx1 Sign.Plus, if_neg (by rw [hlastk, hr]; exact fun hc => Sign.noConfusion hc),
          hP.1, ← keq, Finset.erase_eq_of_not_mem
            (fun hc => (hkPiff.mp (Finset.mem_erase.mp hc).2) |> fun hc2 => Sign.noConfusion (hr ▸ hc2)),
          Finset.erase_eq_of_not_mem
            (by rw [hkPiff, hr]; exact fun hc => Sign.noConfusion hc)]
      · rw [hidx1 Sign.Minus, if_pos (by rw [hlastk, hr]), hP.2, ← keq,
          Finset.erase_insert_eq_erase]

/-- C4 witness: `swap_remove(1)` on `[1, -2, 3]` returns `-2` leaving
`[1, 3]` with position 1 classified positive. -/
theorem swapRemove_correct_witness :
    (SignVec.fromList [1, -2, 3]).swapRemove 1 =
      some (-2, { vals := [1, 3], pos := idxOf Sign.Plus [1, 3],
                  neg := idxOf Sign.Minus [1, 3] }) ∧
    idxOf Sign.Plus ([1, 3] : List Int) = {0, 1} ∧
    idxOf Sign.Minus ([1, 3] : List Int) = ∅ := by
  have h := swapRemove_correct (SignVec.fromList [1, -2, 3]) 1 (INV_fromList _) (by decide)
  refine ⟨?_, by decide, by decide⟩
  have h1 := h.1
  rw [show ((SignVec.fromList [1, -2, 3]).vals.set 1
      ((SignVec.fromList [1, -2, 3]).vals.getLast?.getD 0)).dropLast = [1, 3] by decide] at h1
  rw [show (SignVec.fromList [1, -2, 3]).vals.getD 1 0 = -2 by decide] at h1
  exact h1

/-- Auxiliary induction for the draining view: `k` advances of
`SignVecDrain::next` from an invariant-satisfying parent yield the first
`k` elements of the range in order, leave the parent holding the original
sequence with those `k` elements removed, preserve the invariant, and
shrink the end bound by `k`. -/
lemma drainN_spec : ∀ (k : ℕ) (sv : SignVec) (start stop : ℕ), INV sv →
    start ≤ stop → stop ≤ sv.vals.length → k ≤ stop - start →
    (drainN k start stop sv).1 = (sv.vals.drop start).take k ∧
    (drainN k start stop sv).2.1.vals = sv.vals.take start ++ sv.vals.drop (start + k) ∧
    INV (drainN k start stop sv).2.1 ∧
    (drainN k start stop sv).2.2 = stop - k := by
  intro k
  induction k with
  | zero =>
    intro sv start stop h h1 h2 hk
    refine ⟨rfl, ?_, h, rfl⟩
    show sv.vals = _
    rw [Nat.add_zero, List.take_append_drop]
  | succ k ih =>
    intro sv start stop h h1 h2 hk
    have hss : start < stop := by omega
    have hsl : start < sv.vals.length := by omega
    have hnext : drainNext start stop sv =
        some (sv.vals.getD start 0, drainStep start sv, stop - 1) := by
      unfold drainNext
      rw [if_neg (by omega)]
    have hvals1 : (drainStep start sv).vals =
        sv.vals.take start ++ sv.vals.drop (start + 1) := by
      show sv.vals.eraseIdx start = _
      rw [List.eraseIdx_eq_take_drop_succ]
    have hlen1 : (drainStep start sv).vals.length = sv.vals.length - 1 := by
      show (sv.vals.eraseIdx start).length = _
      rw [List.length_eraseIdx, if_pos hsl]
    have hinv1 : INV (drainStep start sv) := by
      rw [INV_iff]
      have hP := INV_iff.mp h
      constructor
      · show (sv.pos.erase start).image _ = idxOf Sign.Plus (sv.vals.eraseIdx start)
        rw [idxOf_eraseIdx _ _ _ hsl, hP.1]
      · show (sv.neg.erase start).image _ = idxOf Sign.Minus (sv.vals.eraseIdx start)
        rw [idxOf_eraseIdx _ _ _ hsl, hP.2]
    have hltake : (sv.vals.take start).length = start := by
      rw [List.length_take]
      omega
    have hdrop1 : (drainStep start sv).vals.drop start = sv.vals.drop (start + 1) := by
      rw [hvals1, List.drop_append_eq_append_drop, hltake, Nat.sub_self,
        List.drop_eq_nil_of_le (by rw [hltake]), List.nil_append, List.drop_zero]
    have htake1 : (drainStep start sv).vals.take start = sv.vals.take start := by
      rw [hvals1, List.take_append_eq_append_take, hltake, Nat.sub_self,
        List.take_zero, List.append_nil, List.take_take, min_self]
    have hdropk : (drainStep start sv).vals.drop (start + k) =
        sv.vals.drop (start + 1 + k) := by
      rw [hvals1, List.drop_append_eq_append_drop, hltake,
        List.drop_eq_nil_of_le (by rw [hltake]; omega), List.nil_append,
        Nat.add_sub_cancel_left, List.drop_drop]
    have hred : drainN (k + 1) start stop sv =
        ((sv.vals.getD start 0) :: (drainN k start (stop - 1) (drainStep start sv)).1,
         (drainN k start (stop - 1) (drainStep start sv)).2.1,
         (drainN k start (stop - 1) (drainStep start sv)).2.2) := by
      simp only [drainN, hnext]
    obtain ⟨ih1, ih2, ih3, ih4⟩ :=
      ih (drainStep start sv) start (stop - 1) hinv1 (by omega)
        (by rw [hlen1]; omega) (by omega)
    refine ⟨?_, ?_, ?_, ?_⟩
    · rw [hred]
      show sv.vals.getD start 0 :: _ = _
      rw [ih1, hdrop1, List.drop_eq_getElem_cons hsl, List.take_succ_cons]
      congr 1
      exact List.getD_eq_getElem _ _ hsl
    · rw [hred]
      show (drainN k start (stop - 1) (drainStep start sv)).2.1.vals = _
      rw [ih2, htake1, hdropk]
      congr 2
      omega
    · rw [hred]
      exact ih3
    · rw [hred]
      show (drainN k start (stop - 1) (drainStep start sv)).2.2 = _
      rw [ih4]
      omega

/-- C3: for an invariant-satisfying parent and a valid resolved range
`start..stop`, the drain view is handed out with cursor `start` and end
bound `stop`, and any prefix of `k` advances (including stopping early)
yields the elements originally at positions `start..start+k` in order,
leaves the parent holding the original sequence with those `k` elements
removed, keeps INV1-INV3, and shrinks the end bound to `stop - k`. -/
theorem drain_correct (sv : SignVec) (start stop k : ℕ) (h : INV sv)
    (h1 : start ≤ stop) (h2 : stop ≤ sv.vals.length) (hk : k ≤ stop - start) :
    sv.drain start stop = some (sv, start, stop) ∧
    (drainN k start stop sv).1 = (sv.vals.drop start).take k ∧
    (drainN k start stop sv).2.1.vals = sv.vals.take start ++ sv.vals.drop (start + k) ∧
    INV (drainN k start stop sv).2.1 ∧
    (drainN k start stop sv).2.2 = stop - k := by
  have hs := drainN_spec k sv start stop h h1 h2 hk
  refine ⟨?_, hs.1, hs.2.1, hs.2.2.1, hs.2.2.2⟩
  unfold SignVec.drain
  rw [if_neg (by omega)]

/-- C3 witness: draining `[1, 3)` of `[5, -10, 15, 20]` yields `[-10, 15]`
in order and leaves the parent holding `[5, 20]` with the invariant
intact. -/
theorem drain_correct_witness :
    (drainN 2 1 3 (SignVec.fromList [5, -10, 15, 20])).1 = [-10, 15] ∧
    (drainN 2 1 3 (SignVec.fromList [5, -10, 15, 20])).2.1.vals = [5, 20] ∧
    INV (drainN 2 1 3 (SignVec.fromList [5, -10, 15, 20])).2.1 := by
  have h := drain_correct (SignVec.fromList [5, -10, 15, 20]) 1 3 2
    (INV_fromList _) (by decide) (by decide) (by decide)
  exact ⟨h.2.1.trans (by decide), h.2.2.1.trans (by decide), h.2.2.2.1⟩

lemma getD_take (l : List Int) (n m : ℕ) :
    (l.take n).getD m 0 = if m < n then l.getD m 0 else 0 := by
  rw [List.getD_eq_getElem?_getD, List.getElem?_take]
  split
  · rw [List.getD_eq_getElem?_getD]
  · rfl

lemma getD_drop (l : List Int) (n m : ℕ) :
    (l.drop n).getD m 0 = l.getD (n + m) 0 := by
  rw [List.getD_eq_getElem?_getD, List.getElem?_drop, List.getD_eq_getElem?_getD]

/-- Membership after the `extend_from_within` registration loop: a position
is tracked exactly when it was tracked before the loop or it is the
re-homed copy `offset + i - start` of a source position `i` covered by the
loop whose element carries the matching sign. -/
lemma efwBody_foldl_mem (vals1 : List Int) (offset start : ℕ) :
    ∀ (n s0 : ℕ) (p q : Finset ℕ) (j : ℕ),
      (j ∈ ((List.range' s0 n).foldl (efwBody vals1 offset start) (p, q)).1 ↔
        j ∈ p ∨ ∃ m, m < n ∧ sgn (vals1.getD (s0 + m) 0) = Sign.Plus ∧
          j = offset + (s0 + m) - start) ∧
      (j ∈ ((List.range' s0 n).foldl (efwBody vals1 offset start) (p, q)).2 ↔
        j ∈ q ∨ ∃ m, m < n ∧ sgn (vals1.getD (s0 + m) 0) = Sign.Minus ∧
          j = offset + (s0 + m) - start) := by
  intro n
  induction n with
  | zero =>
    intro s0 p q j
    constructor <;> simp [List.range']
  | succ n ih =>
    intro s0 p q j
    rw [List.range'_succ, List.foldl_cons]
    have harith : ∀ m : ℕ, s0 + (m + 1) = s0 + 1 + m := by omega
    rcases hs : sgn (vals1.getD s0 0) with _ | _
    · have hbody : efwBody vals1 offset start (p, q) s0 =
          (insert (offset + s0 - start) p, q) := by
        unfold efwBody
        rw [hs]
      rw [hbody]
      obtain ⟨ih1, ih2⟩ := ih (s0 + 1) (insert (offset + s0 - start) p) q j
      constructor
      · rw [ih1, Finset.mem_insert]
        constructor
        · rintro ((rfl | hp) | ⟨m, hm, hsg, rfl⟩)
          · exact Or.inr ⟨0, by omega, by rw [Nat.add_zero]; exact hs, by omega⟩
          · exact Or.inl hp
          · exact Or.inr ⟨m + 1, by omega, by rw [harith m]; exact hsg, by omega⟩
        · rintro (hp | ⟨m, hm, hsg, rfl⟩)
          · exact Or.inl (Or.inr hp)
          · rcases Nat.eq_zero_or_pos m with rfl | hmpos
            · exact Or.inl (Or.inl (by omega))
            · refine Or.inr ⟨m - 1, by omega, ?_, by omega⟩
              rw [show s0 + 1 + (m - 1) = s0 + m by omega]
              exact hsg
      · rw [ih2]
        constructor
        · rintro (hq | ⟨m, hm, hsg, rfl⟩)
          · exact Or.inl hq
          · exact Or.inr ⟨m + 1, by omega, by rw [harith m]; exact hsg, by omega⟩
        · rintro (hq | ⟨m, hm, hsg, rfl⟩)
          · exact Or.inl hq
          · rcases Nat.eq_zero_or_pos m with rfl | hmpos
            · rw [Nat.add_zero, hs] at hsg
              cases hsg
            · refine Or.inr ⟨m - 1, by omega, ?_, by omega⟩
              rw [show s0 + 1 + (m - 1) = s0 + m by omega]
              exact hsg
    · have hbody : efwBody vals1 offset start (p, q) s0 =
          (p, insert (offset + s0 - start) q) := by
        unfold efwBody
        rw [hs]
      rw [hbody]
      obtain ⟨ih1, ih2⟩ := ih (s0 + 1) p (insert (offset + s0 - start) q) j
      constructor
      · rw [ih1]
        constructor
        · rintro (hp | ⟨m, hm, hsg, rfl⟩)
          · exact Or.inl hp
          · exact Or.inr ⟨m + 1, by omega, by rw [harith m]; exact hsg, by omega⟩
        · rintro (hp | ⟨m, hm, hsg, rfl⟩)
          · exact Or.inl hp
          · rcases Nat.eq_zero_or_pos m with rfl | hmpos
            · rw [Nat.add_zero, hs] at hsg
              cases hsg
            · refine Or.inr ⟨m - 1, by omega, ?_, by omega⟩
              rw [show s0 + 1 + (m - 1) = s0 + m by omega]
              exact hsg
      · rw [ih2, Finset.mem_insert]
        constructor
        · rintro ((rfl | hq) | ⟨m, hm, hsg, rfl⟩)
          · exact Or.inr ⟨0, by omega, by rw [Nat.add_zero]; exact hs, by omega⟩
          · exact Or.inl hq
          · exact Or.inr ⟨m + 1, by omega, by rw [harith m]; exact hsg, by omega⟩
        · rintro (hq | ⟨m, hm, hsg, rfl⟩)
          · exact Or.inl (Or.inr hq)
          · rcases Nat.eq_zero_or_pos m with rfl | hmpos
            · exact Or.inl (Or.inl (by omega))
            · refine Or.inr ⟨m - 1, by omega, ?_, by omega⟩
              rw [show s0 + 1 + (m - 1) = s0 + m by omega]
              exact hsg

/-- C9: for a valid sub-range `start..stop` of an invariant-satisfying
instance, `extend_from_within` appends copies of the elements at positions
`start..stop` in order, registers each new tail position
`oldLength + (i - start)` under the copied element's sign, and both
partition sets end up exactly as a sync recomputation of the extended
sequence, so INV1-INV3 hold on return and every pre-existing position
keeps its value and its set memberships. -/
theorem extendFromWithin_correct (sv : SignVec) (start stop : ℕ) (h : INV sv)
    (h1 : start ≤ stop) (h2 : stop ≤ sv.vals.length) :
    sv.extendFromWithin start stop =
      some { vals := sv.vals ++ ((sv.vals.drop start).take (stop - start)),
             pos := idxOf Sign.Plus (sv.vals ++ ((sv.vals.drop start).take (stop - start))),
             neg := idxOf Sign.Minus (sv.vals ++ ((sv.vals.drop start).take (stop - start))) } ∧
    INV { vals := sv.vals ++ ((sv.vals.drop start).take (stop - start)),
          pos := idxOf Sign.Plus (sv.vals ++ ((sv.vals.drop start).take (stop - start))),
          neg := idxOf Sign.Minus (sv.vals ++ ((sv.vals.drop start).take (stop - start))) } ∧
    (∀ i, i < sv.vals.length →
      (sv.vals ++ ((sv.vals.drop start).take (stop - start))).getD i 0 = sv.vals.getD i 0 ∧
      (i ∈ idxOf Sign.Plus (sv.vals ++ ((sv.vals.drop start).take (stop - start))) ↔ i ∈ sv.pos) ∧
      (i ∈ idxOf Sign.Minus (sv.vals ++ ((sv.vals.drop start).take (stop - start))) ↔ i ∈ sv.neg)) := by
  have hP := INV_iff.mp h
  set vals1 := sv.vals ++ ((sv.vals.drop start).take (stop - start)) with hvals1
  have hslicelen : ((sv.vals.drop start).take (stop - start)).length = stop - start := by
    rw [List.length_take, List.length_drop]
    omega
  have hlen1 : vals1.length = sv.vals.length + (stop - start) := by
    rw [hvals1, List.length_append, hslicelen]
  have hgetD : ∀ i, i < sv.vals.length → vals1.getD i 0 = sv.vals.getD i 0 := by
    intro i hi
    rw [hvals1, getD_append, if_pos hi]
  have hgetD2 : ∀ m, m < stop - start →
      vals1.getD (sv.vals.length + m) 0 = sv.vals.getD (start + m) 0 := by
    intro m hm
    rw [hvals1, getD_append, if_neg (by omega), Nat.add_sub_cancel_left,
      getD_take, if_pos hm, getD_drop]
  have hmono : ∀ i, i < sv.vals.length →
      (i ∈ idxOf Sign.Plus vals1 ↔ i ∈ sv.pos) ∧
      (i ∈ idxOf Sign.Minus vals1 ↔ i ∈ sv.neg) := by
    intro i hi
    constructor
    · rw [hP.1, mem_idxOf, mem_idxOf, hgetD i hi]
      constructor
      · rintro ⟨_, hsg⟩
        exact ⟨hi, hsg⟩
      · rintro ⟨_, hsg⟩
        exact ⟨by omega, hsg⟩
    · rw [hP.2, mem_idxOf, mem_idxOf, hgetD i hi]
      constructor
      · rintro ⟨_, hsg⟩
        exact ⟨hi, hsg⟩
      · rintro ⟨_, hsg⟩
        exact ⟨by omega, hsg⟩
  have hfold : ∀ j,
      (j ∈ ((List.range' start (stop - start)).foldl
        (efwBody vals1 sv.vals.length start) (sv.pos, sv.neg)).1 ↔
        j ∈ idxOf Sign.Plus vals1) ∧
      (j ∈ ((List.range' start (stop - start)).foldl
        (efwBody vals1 sv.vals.length start) (sv.pos, sv.neg)).2 ↔
        j ∈ idxOf Sign.Minus vals1) := by
    intro j
    obtain ⟨hm1, hm2⟩ :=
      efwBody_foldl_mem vals1 sv.vals.length start (stop - start) start sv.pos sv.neg j
    have hsrc : ∀ m, m < stop - start →
        sgn (vals1.getD (start + m) 0) = sgn (vals1.getD (sv.vals.length + m) 0) := by
      intro m hm
      rw [hgetD (start + m) (by omega), hgetD2 m hm]
    constructor
    · rw [hm1]
      constructor
      · rintro (hp | ⟨m, hm, hsg, rfl⟩)
        · exact (hmono j (by
            have := (INV_iff.mp h).1 ▸ hp
            exact (mem_idxOf.mp this).1)).1.mpr hp
        · rw [mem_idxOf]
          refine ⟨by omega, ?_⟩
          rw [show sv.vals.length + (start + m) - start = sv.vals.length + m by omega]
          rw [← hsrc m hm]
          exact hsg
      · intro hj
        have hjlen := (mem_idxOf.mp hj).1
        by_cases hjL : j < sv.vals.length
        · exact Or.inl ((hmono j hjL).1.mp hj)
        · refine Or.inr ⟨j - sv.vals.length, by omega, ?_, by omega⟩
          rw [hsrc (j - sv.vals.length) (by omega),
            show sv.vals.length + (j - sv.vals.length) = j by omega]
          exact (mem_idxOf.mp hj).2
    · rw [hm2]
      constructor
      · rintro (hq | ⟨m, hm, hsg, rfl⟩)
        · exact (hmono j (by
            have := (INV_iff.mp h).2 ▸ hq
            exact (mem_idxOf.mp this).1)).2.mpr hq
        · rw [mem_idxOf]
          refine ⟨by omega, ?_⟩
          rw [show sv.vals.length + (start + m) - start = sv.vals.length + m by omega]
          rw [← hsrc m hm]
          exact hsg
      · intro hj
        have hjlen := (mem_idxOf.mp hj).1
        by_cases hjL : j < sv.vals.length
        · exact Or.inl ((hmono j hjL).2.mp hj)
        · refine Or.inr ⟨j - sv.vals.length, by omega, ?_, by omega⟩
          rw [hsrc (j - sv.vals.length) (by omega),
            show sv.vals.length + (j - sv.vals.length) = j by omega]
          exact (mem_idxOf.mp hj).2
  refine ⟨?_, by rw [INV_iff]; exact ⟨rfl, rfl⟩, fun i hi => ⟨hgetD i hi, hmono i hi⟩⟩
  simp only [SignVec.extendFromWithin]
  rw [if_neg (by omega)]
  rw [← hvals1]
  congr 1
  refine SignVec.mk.injEq _ _ _ _ _ _ ▸ ?_
  refine ⟨rfl, ?_, ?_⟩
  · exact Finset.ext fun j => (hfold j).1
  · exact Finset.ext fun j => (hfold j).2

/-- C9 witness: extending `[5, -10, 15, 20]` from the sub-range `[0, 3)`
appends `[5, -10, 15]`, registering tail positions 4 and 6 as positive and
5 as negative. -/
theorem extendFromWithin_correct_witness :
    (SignVec.fromList [5, -10, 15, 20]).extendFromWithin 0 3 =
      some { vals := [5, -10, 15, 20, 5, -10, 15],
             pos := idxOf Sign.Plus [5, -10, 15, 20, 5, -10, 15],
             neg := idxOf Sign.Minus [5, -10, 15, 20, 5, -10, 15] } ∧
    idxOf Sign.Plus ([5, -10, 15, 20, 5, -10, 15] : List Int) = {0, 2, 3, 4, 6} ∧
    idxOf Sign.Minus ([5, -10, 15, 20, 5, -10, 15] : List Int) = {1, 5} := by
  have h := extendFromWithin_correct (SignVec.fromList [5, -10, 15, 20]) 0 3
    (INV_fromList _) (by decide) (by decide)
  refine ⟨?_, by decide, by decide⟩
  have h1 := h.1
  rw [show (SignVec.fromList [5, -10, 15, 20]).vals ++
      (((SignVec.fromList [5, -10, 15, 20]).vals.drop 0).take (3 - 0)) =
      [5, -10, 15, 20, 5, -10, 15] from by decide] at h1
  exact h1

/-- The modelled `drawRandom` contract: `none` exactly when the set is
empty, and any drawn position is a member. -/
lemma setRandom_spec (s : Finset ℕ) (rng : ℕ) :
    (setRandom s rng = none ↔ s.card = 0) ∧
    (∀ i, setRandom s rng = some i → i ∈ s) := by
  unfold setRandom
  by_cases hc : s.card = 0
  · simp [hc]
  · rw [if_neg hc]
    refine ⟨by simp [hc], ?_⟩
    intro i hi
    injection hi with hi
    subst hi
    have hlt : rng % s.card < (s.sort (· ≤ ·)).length := by
      rw [Finset.length_sort]
      exact Nat.mod_lt _ (Nat.pos_of_ne_zero hc)
    rw [List.getD_eq_getElem _ _ hlt]
    exact (Finset.mem_sort (· ≤ ·)).mp (List.getElem_mem hlt)

/-- C7: under INV1-INV3 and the external set primitive's `drawRandom`
contract, `random(s, rng)` returns `none` exactly when `count(s) = 0` and
otherwise an in-bounds position whose element classifies as `s`; the
fixed-classification shortcuts `random_pos` / `random_neg` agree with
`random` at the corresponding sign for the same rng state. -/
theorem random_correct (sv : SignVec) (s : Sign) (rng : ℕ) (h : INV sv) :
    (sv.random s rng = none ↔ sv.count s = 0) ∧
    (∀ i, sv.random s rng = some i →
      i < sv.vals.length ∧ sgn (sv.vals.getD i 0) = s) ∧
    sv.randomPos rng = sv.random Sign.Plus rng ∧
    sv.randomNeg rng = sv.random Sign.Minus rng := by
  have hP := INV_iff.mp h
  rcases s with _ | _
  · refine ⟨(setRandom_spec sv.pos rng).1, ?_, rfl, rfl⟩
    intro i hi
    have hmem := (setRandom_spec sv.pos rng).2 i hi
    rw [hP.1, mem_idxOf] at hmem
    exact hmem
  · refine ⟨(setRandom_spec sv.neg rng).1, ?_, rfl, rfl⟩
    intro i hi
    have hmem := (setRandom_spec sv.neg rng).2 i hi
    rw [hP.2, mem_idxOf] at hmem
    exact hmem

/-- C7 witness: on `[1, -2, 3]` the positive draw with rng state 0 is
`none` exactly when the positive count is zero, and the fixed-sign
shortcut agrees with `random` at `Plus`. -/
theorem random_correct_witness :
    ((SignVec.fromList [1, -2, 3]).random Sign.Plus 0 = none ↔
      (SignVec.fromList [1, -2, 3]).count Sign.Plus = 0) ∧
    (SignVec.fromList [1, -2, 3]).randomPos 0 =
      (SignVec.fromList [1, -2, 3]).random Sign.Plus 0 := by
  have h := random_correct (SignVec.fromList [1, -2, 3]) Sign.Plus 0 (INV_fromList _)
  exact ⟨h.1, h.2.2.1⟩

lemma intCmp_eq_lt {x y : Int} : intCmp x y = Ordering.lt ↔ x < y := by
  unfold intCmp
  split_ifs with h1 h2 <;> simp_all

lemma intCmp_eq_eq {x y : Int} : intCmp x y = Ordering.eq ↔ x = y := by
  unfold intCmp
  split_ifs with h1 h2 <;> simp_all
  omega

lemma intCmp_eq_gt {x y : Int} : intCmp x y = Ordering.gt ↔ y < x := by
  unfold intCmp
  split_ifs with h1 h2 <;> simp_all <;> omega

lemma lex_cons_iff {a b : Int} {as bs : List Int} :
    List.Lex (· < ·) (a :: as) (b :: bs) ↔
      a < b ∨ (a = b ∧ List.Lex (· < ·) as bs) := by
  constructor
  · intro hl
    cases hl with
    | rel hr => exact Or.inl hr
    | cons hr => exact Or.inr ⟨rfl, hr⟩
  · rintro (hr | ⟨rfl, hr⟩)
    · exact List.Lex.rel hr
    · exact List.Lex.cons hr

lemma lex_nil_right (as : List Int) : ¬ List.Lex (· < ·) as ([] : List Int) := by
  intro hl
  cases hl

/-- The `Vec::cmp` lexicographic comparison decides equality and Mathlib's
lexicographic strict order on the element sequences. -/
lemma listCmp_spec : ∀ (as bs : List Int),
    (listCmp as bs = Ordering.eq ↔ as = bs) ∧
    (listCmp as bs = Ordering.lt ↔ List.Lex (· < ·) as bs) ∧
    (listCmp as bs = Ordering.gt ↔ List.Lex (· < ·) bs as) := by
  intro as
  induction as with
  | nil =>
    intro bs
    cases bs with
    | nil =>
      refine ⟨by simp [listCmp], ?_, ?_⟩
      · exact iff_of_false (by simp [listCmp]) (lex_nil_right _)
      · exact iff_of_false (by simp [listCmp]) (lex_nil_right _)
    | cons b bs =>
      refine ⟨by simp [listCmp], ?_, ?_⟩
      · exact iff_of_true (by simp [listCmp]) List.Lex.nil
      · exact iff_of_false (by simp [listCmp]) (lex_nil_right _)
  | cons a as ih =>
    intro bs
    cases bs with
    | nil =>
      refine ⟨by simp [listCmp], ?_, ?_⟩
      · exact iff_of_false (by simp [listCmp]) (lex_nil_right _)
      · exact iff_of_true (by simp [listCmp]) List.Lex.nil
    | cons b bs =>
      obtain ⟨ih1, ih2, ih3⟩ := ih bs
      rcases hc : intCmp a b with _ | _ | _
      · -- heads compare strictly below
        have hab : a < b := intCmp_eq_lt.mp hc
        have hstep : listCmp (a :: as) (b :: bs) = Ordering.lt := by
          simp only [listCmp, hc]
        refine ⟨?_, ?_, ?_⟩
        · refine iff_of_false (by rw [hstep]; decide) ?_
          intro hx
          injection hx with h1 _
          omega
        · exact iff_of_true hstep (List.Lex.rel hab)
        · refine iff_of_false (by rw [hstep]; decide) ?_
          intro hl
          rw [lex_cons_iff] at hl
          rcases hl with hr | ⟨heq, _⟩ <;> omega
      · -- heads equal
        have hab : a = b := intCmp_eq_eq.mp hc
        subst hab
        have hstep : listCmp (a :: as) (a :: bs) = listCmp as bs := by
          simp only [listCmp, hc]
        refine ⟨?_, ?_, ?_⟩
        · rw [hstep, ih1]
          constructor
          · intro hx
            rw [hx]
          · intro hx
            injection hx
        · rw [hstep, ih2, lex_cons_iff]
          constructor
          · intro hl
            exact Or.inr ⟨rfl, hl⟩
          · rintro (hr | ⟨_, hl⟩)
            · omega
            · exact hl
        · rw [hstep, ih3, lex_cons_iff]
          constructor
          · intro hl
            exact Or.inr ⟨rfl, hl⟩
          · rintro (hr | ⟨_, hl⟩)
            · omega
            · exact hl
      · -- heads compare strictly above
        have hab : b < a := intCmp_eq_gt.mp hc
        have hstep : listCmp (a :: as) (b :: bs) = Ordering.gt := by
          simp only [listCmp, hc]
        refine ⟨?_, ?_, ?_⟩
        · refine iff_of_false (by rw [hstep]; decide) ?_
          intro hx
          injection hx with h1 _
          omega
        · refine iff_of_false (by rw [hstep]; decide) ?_
          intro hl
          rw [lex_cons_iff] at hl
          rcases hl with hr | ⟨heq, _⟩ <;> omega
        · exact iff_of_true hstep (List.Lex.rel hab)

/-- C8: equality of two instances is exactly equality of their element
sequences, and the comparison order is exactly the lexicographic order of
the element sequences; the partition sets are never consulted, so two
instances with equal sequences but different partition sets compare
equal. -/
theorem eq_ord_vals_only (a b : SignVec) :
    (a.beq b = true ↔ a.vals = b.vals) ∧
    (a.cmp b = Ordering.eq ↔ a.vals = b.vals) ∧
    (a.cmp b = Ordering.lt ↔ List.Lex (· < ·) a.vals b.vals) ∧
    (a.cmp b = Ordering.gt ↔ List.Lex (· < ·) b.vals a.vals) := by
  obtain ⟨h1, h2, h3⟩ := listCmp_spec a.vals b.vals
  exact ⟨beq_iff_eq, h1, h2, h3⟩

/-- C6: each checked entry point fails exactly on an out-of-bounds
argument and otherwise proceeds: `set` fails iff `idx >= len`, reporting
the offending index and the current length; the drain view fails iff the
resolved range has `start > end` or `end > len`; `split_off` fails iff
`at > len`, reporting the length and the split index; a failing call
returns only the error, handing back no mutated structure. -/
theorem checked_bounds_correct (sv : SignVec) (idx : ℕ) (v : Int)
    (start stop at_ : ℕ) :
    (sv.set idx v = Except.error (idx, sv.vals.length) ↔ sv.vals.length ≤ idx) ∧
    (sv.set idx v = Except.ok (sv.setUnchecked idx v) ↔ idx < sv.vals.length) ∧
    (sv.drain start stop = none ↔ (stop < start ∨ sv.vals.length < stop)) ∧
    (sv.drain start stop = some (sv, start, stop) ↔
      (start ≤ stop ∧ stop ≤ sv.vals.length)) ∧
    (sv.splitOff at_ = Except.error (sv.vals.length, at_) ↔ sv.vals.length < at_) ∧
    ((∃ r, sv.splitOff at_ = Except.ok r) ↔ at_ ≤ sv.vals.length) := by
  refine ⟨?_, ?_, ?_, ?_, ?_, ?_⟩
  · unfold SignVec.set
    by_cases hc : sv.vals.length ≤ idx
    · rw [if_pos hc]
      simp [hc]
    · rw [if_neg hc]
      simp [hc]
  · unfold SignVec.set
    by_cases hc : sv.vals.length ≤ idx
    · rw [if_pos hc]
      simp
      omega
    · rw [if_neg hc]
      simp
      omega
  · unfold SignVec.drain
    by_cases hc : start > stop ∨ stop > sv.vals.length
    · rw [if_pos hc]
      simp
      omega
    · rw [if_neg hc]
      simp
      omega
  · unfold SignVec.drain
    by_cases hc : start > stop ∨ stop > sv.vals.length
    · rw [if_pos hc]
      simp
      omega
    · rw [if_neg hc]
      simp
      omega
  · unfold SignVec.splitOff
    by_cases hc : at_ > sv.vals.length
    · rw [if_pos hc]
      simp [hc]
    · rw [if_neg hc]
      simp
      omega
  · unfold SignVec.splitOff
    by_cases hc : at_ > sv.vals.length
    · rw [if_pos hc]
      simp
      omega
    · rw [if_neg hc]
      simp
      omega

/-- C1 (counterexample to the all-mutations invariant): starting from an
empty instance, `push 1; push 2; push 3; remove(1)` is a supported
mutation sequence after which the partition sets are NOT what `sync()`
would recompute: `remove` decrements the tracked positions before deleting
the removed position, so old position 2 collapses onto position 1 inside
`pos` and the final deletion wipes the merged entry, leaving
`pos = {0}` although the sync of `[1, 3]` yields `pos = {0, 1}`. -/
theorem mutation_invariant_cex :
    INV (((SignVec.empty.push 1).push 2).push 3) ∧
    (((SignVec.empty.push 1).push 2).push 3).remove 1 =
      some (2, { vals := [1, 3], pos := {0}, neg := ∅ }) ∧
    ¬ INV { vals := ([1, 3] : List Int), pos := ({0} : Finset ℕ), neg := (∅ : Finset ℕ) } ∧
    (SignVec.sync { vals := [1, 3], pos := {0}, neg := ∅ }).pos = {0, 1} := by
  refine ⟨by decide, by decide, by decide, by decide⟩

/-- C2 (counterexample to the remove repair rule): on the
invariant-satisfying instance over `[5, 10, 15]`, `remove(1)` returns the
right element and sequence but leaves `pos = {0}` instead of `{0, 1}`:
the code decrements tracked positions `> 1` before deleting position 1,
so 2 collapses onto 1 and the subsequent deletion of the removed
position's entry also destroys the shifted neighbour's entry, violating
INV1-INV2 on return. -/
theorem remove_repair_cex :
    INV (SignVec.fromList [5, 10, 15]) ∧
    (SignVec.fromList [5, 10, 15]).remove 1 =
      some (10, { vals := [5, 15], pos := {0}, neg := ∅ }) ∧
    ¬ INV { vals := ([5, 15] : List Int), pos := ({0} : Finset ℕ), neg := (∅ : Finset ℕ) } ∧
    (SignVec.sync { vals := [5, 15], pos := {0}, neg := ∅ }).pos = {0, 1} := by
  refine ⟨by decide, by decide, by decide, by decide⟩
